import Mathlib

/-!
Shallow embedding of the extendedRLM geometric feature-extraction pipeline
(src/convex_hull.py and src/image.py) and verification of the frozen claims.

Conventions of the embedding:
* Python `int` → `ℤ` (pixel indices are naturals cast to `ℤ`);
* a binary mask (2D list of booleans) → `List (List Bool)`;
* Python float arithmetic appearing only through exact operations on small
  integers/rationals (slope sort keys, RLM fractions) → `ℚ`;
* genuinely real-valued float computation (π, cos, sin, log) → `ℝ`;
* `int(float)` truncation of a nonnegative quantity → `Int.toNat ∘ Int.floor`
  (or `Nat.sqrt` for `int(math.dist ...))` on integer points, since truncating
  the real square root of a natural number is exactly the integer square root);
* a Python statement that raises (ZeroDivisionError, IndexError) → an explicit
  error value of an inductive result type;
* the in-place `while` loop of `convex_hull` → structural recursion on a fuel
  parameter that dominates its loop variant `2*len(ch) - i`.
-/

namespace RLM

/-- A pixel: integer pair (x, y), as in the Python tuples. -/
abbrev Point : Type := ℤ × ℤ

/-- A binary mask: 2D list of booleans, `obj[x][y]`, as in the Python code. -/
abbrev Mask : Type := List (List Bool)

/-- In-bounds double indexing `obj[x][y]` (used only under the bounds guards
that the Python code performs before indexing). -/
def maskGet (obj : Mask) (x y : ℤ) : Bool :=
  (obj.getD x.toNat []).getD y.toNat false

/-- `isContour` from src/convex_hull.py (lines 4–18): a pixel is a contour
pixel iff it is in bounds and true, and is on the image border (with the upper
bound for y taken, as in the source, from `len(obj) - 1`) or has a false
4-neighbor. -/
def isContour (obj : Mask) (x y : ℤ) : Bool :=
  if x < 0 || y < 0 || x ≥ (obj.length : ℤ) || y ≥ ((obj.headD []).length : ℤ)
      || !(maskGet obj x y) then
    false
  else if x = 0 || y = 0 || x = (obj.length : ℤ) - 1 || y = (obj.length : ℤ) - 1 then
    true
  else
    !(maskGet obj (x - 1) y) || !(maskGet obj (x + 1) y)
      || !(maskGet obj x (y - 1)) || !(maskGet obj x (y + 1))

/-- `object_contour` from src/convex_hull.py (lines 21–34). Note that, as in
the source, BOTH loop ranges are `range(len(obj))` (the row count), so columns
beyond the row count are never scanned. -/
def object_contour (obj : Mask) : List Point :=
  (List.range obj.length).flatMap fun i =>
    (List.range obj.length).filterMap fun j =>
      if isContour obj i j then some ((i : ℤ), (j : ℤ)) else none

/-- `get_corner_pixel` from src/convex_hull.py (lines 37–48): lexicographic
minimum of the contour, starting from the sentinel (9999, 9999). -/
def get_corner_pixel (contour : List Point) : Point :=
  contour.foldl
    (fun min_pix pixel =>
      if pixel.1 < min_pix.1 ∨ (pixel.1 = min_pix.1 ∧ pixel.2 < min_pix.2) then pixel
      else min_pix)
    ((9999 : ℤ), (9999 : ℤ))

/-- `compute_slope` from src/convex_hull.py (lines 51–62); the float division
is modelled exactly in `ℚ` (`Rat.divInt n d` is the rational `n / d`, see
`compute_slope_eq_div` below). -/
def compute_slope (p1 p2 : Point) : ℚ :=
  if p2.1 - p1.1 = 0 then 1 else Rat.divInt (p2.2 - p1.2) (p2.1 - p1.1)

/-- `compute_power` from src/convex_hull.py (lines 65–75): all-integer cross
product (the Python `int(...)` is the identity here). -/
def compute_power (line_p1 line_p2 point : Point) : ℤ :=
  (line_p2.2 - line_p1.2) * (point.1 - line_p1.1)
    - (line_p2.1 - line_p1.1) * (point.2 - line_p1.2)

/-- Stable ascending insertion of a point into a list sorted by slope key:
the new element goes after every element whose key is ≤ its own.  Folding this
over the input reproduces Python's stable `sorted(contour, key=...)`. -/
def insertBySlope (minpix : Point) (x : Point) : List Point → List Point
  | [] => [x]
  | y :: ys =>
    if compute_slope minpix y ≤ compute_slope minpix x then y :: insertBySlope minpix x ys
    else x :: y :: ys

/-- `sortby_slope` from src/convex_hull.py (lines 78–87): stable sort of the
contour by the slope key (a stable insertion sort has exactly the same output
as Python's stable `sorted`). -/
def sortby_slope (minpix : Point) (contour : List Point) : List Point :=
  contour.foldl (fun acc p => insertBySlope minpix p acc) []

/-- Python list indexing `l[i]`, including negative-index resolution:
`l[i]` is `l[len(l)+i]` for `-len(l) ≤ i < 0`; out of range is an IndexError
(`none`). -/
def pyGet (l : List Point) (i : ℤ) : Option Point :=
  if 0 ≤ i then l.get? i.toNat
  else if 0 ≤ (l.length : ℤ) + i then l.get? ((l.length : ℤ) + i).toNat
  else none

/-- Python `l.pop(i)` with negative-index resolution (out of range leaves the
list unchanged; in the embedding it is only reached after a successful
`pyGet` of the same index). -/
def pyPop (l : List Point) (i : ℤ) : List Point :=
  if 0 ≤ i then l.eraseIdx i.toNat
  else if 0 ≤ (l.length : ℤ) + i then l.eraseIdx ((l.length : ℤ) + i).toNat
  else l

/-- Result of running the pruning `while` loop of `convex_hull`:
the final list, or an IndexError / fuel exhaustion marker; in both cases the
trace of cursor values `i` at which a power test was evaluated. -/
inductive PruneOut : Type
  | ok (ch : List Point) (cursors : List ℤ)
  | err (cursors : List ℤ)
  deriving DecidableEq

/-- The pruning `while` loop of `convex_hull` (src/convex_hull.py lines
106–113), instrumented with the list of cursor positions at which the power
test is evaluated.  The loop variant `2*len(ch) - i` decreases by one at each
iteration, so any fuel above the initial variant value makes the fuel case
unreachable. -/
def pruneAux : ℕ → List Point → ℤ → List ℤ → PruneOut
  | 0, _, _, cs => .err cs
  | fuel + 1, ch, i, cs =>
    if i < (ch.length : ℤ) - 1 then
      match pyGet ch (i - 1), pyGet ch (i + 1), pyGet ch i with
      | some a, some b, some c =>
        if 0 ≤ compute_power a b c then pruneAux fuel ch (i + 1) (cs ++ [i])
        else pruneAux fuel (pyPop ch i) (i - 1) (cs ++ [i])
      | _, _, _ => .err (cs ++ [i])
    else .ok ch cs

/-- The sorted contour that `convex_hull` feeds to its pruning loop. -/
def hullInput (obj : Mask) : List Point :=
  sortby_slope (get_corner_pixel (object_contour obj)) (object_contour obj)

/-- `convex_hull` from src/convex_hull.py (lines 90–114): pivot plus pruned
sorted contour.  `none` would mark an IndexError in the loop (never reached on
the inputs appearing in the theorems below). -/
def convex_hull (obj : Mask) : Option (Point × List Point) :=
  match pruneAux (2 * (hullInput obj).length + 4) (hullInput obj) 1 [] with
  | .ok ch _ => some (get_corner_pixel (object_contour obj), ch)
  | .err _ => none

/-- The cursor positions at which `convex_hull`'s pruning loop evaluates a
power test, in evaluation order. -/
def convexHullCursors (obj : Mask) : List ℤ :=
  match pruneAux (2 * (hullInput obj).length + 4) (hullInput obj) 1 [] with
  | .ok _ cs => cs
  | .err cs => cs

/-- `manhattan` from src/convex_hull.py (lines 167–178). -/
def manhattan (x1 y1 x2 y2 : ℤ) : ℤ :=
  |x2 - x1| + |y2 - y1|

/-- The list comprehension `[x for x in range(len(obj)) for y in range(len(obj[x])) if obj[x][y]]`
of `barycentre` (src/image.py line 106). -/
def x_pixels (obj : Mask) : List ℕ :=
  (List.range obj.length).flatMap fun x =>
    (List.range (obj.getD x []).length).filterMap fun y =>
      if (obj.getD x []).getD y false then some x else none

/-- The list comprehension of src/image.py line 107 (same filter, collects `y`). -/
def y_pixels (obj : Mask) : List ℕ :=
  (List.range obj.length).flatMap fun x =>
    (List.range (obj.getD x []).length).filterMap fun y =>
      if (obj.getD x []).getD y false then some y else none

/-- Outcome of `barycentre`: either a point, or the ZeroDivisionError that
Python raises in `sum(x_pixels) / len(x_pixels)` when the mask has no true
pixel. -/
inductive BarycentreResult : Type
  | ok (center : Point)
  | zeroDivisionError
  deriving DecidableEq

/-- `barycentre` from src/image.py (lines 99–108).  `int(sum/len)` on
nonnegative integers is exact natural division. -/
def barycentre (obj : Mask) : BarycentreResult :=
  if (x_pixels obj).length = 0 then .zeroDivisionError
  else .ok (((x_pixels obj).sum / (x_pixels obj).length : ℕ),
            ((y_pixels obj).sum / (y_pixels obj).length : ℕ))

/-- The bounding-box loop of `radial_line_model_radius` (src/image.py lines
122–131), producing `[minX, maxX, minY, maxY]`.  As in the source, `minX` and
`minY` are both initialised to `len(obj)` (the row count). -/
def bounding_box (obj : Mask) : List ℤ :=
  let r := obj.enum.foldl
    (fun (st : ℤ × ℤ × ℤ × ℤ) (row : ℕ × List Bool) =>
      row.2.enum.foldl
        (fun (st2 : ℤ × ℤ × ℤ × ℤ) (cell : ℕ × Bool) =>
          if cell.2 then
            (if (row.1 : ℤ) < st2.1 then (row.1 : ℤ) else st2.1,
             if (row.1 : ℤ) > st2.2.1 then (row.1 : ℤ) else st2.2.1,
             if (cell.1 : ℤ) < st2.2.2.1 then (cell.1 : ℤ) else st2.2.2.1,
             if (cell.1 : ℤ) > st2.2.2.2 then (cell.1 : ℤ) else st2.2.2.2)
          else st2)
        st)
    ((obj.length : ℤ), 0, (obj.length : ℤ), 0)
  [r.1, r.2.1, r.2.2.1, r.2.2.2]

/-- `int(math.dist(p, q))` on integer points: truncating the real square root
of the natural number `dx² + dy²` is exactly the integer square root. -/
def intDist (p q : Point) : ℕ :=
  Nat.sqrt ((p.1 - q.1).natAbs ^ 2 + (p.2 - q.2).natAbs ^ 2)

/-- Body of the corner-selection loop of `radial_line_model_radius`
(src/image.py lines 135–141): keep the corner whose Manhattan distance to the
center strictly exceeds the best so far.  State is `(o, x_max, y_max)`. -/
def cornerSel (x y : ℤ) (st : ℤ × ℤ × ℤ) (c : Point) : ℤ × ℤ × ℤ :=
  if manhattan x y c.1 c.2 > st.1 then (manhattan x y c.1 c.2, c.1, c.2) else st

/-- `radial_line_model_radius` from src/image.py (lines 111–142): select the
bounding-box corner (over `bb[x1], bb[y1+2]` for `x1, y1 ∈ range(2)`, both
boxes) of maximal Manhattan distance to `(x, y)`, then return the truncated
Euclidean distance to the selected corner. -/
def radial_line_model_radius (objects : List Mask) (x y : ℤ) : ℕ :=
  let bbs := objects.map bounding_box
  let sel := bbs.foldl
    (fun st bb =>
      (List.range 2).foldl
        (fun st1 x1 =>
          (List.range 2).foldl
            (fun st2 y1 => cornerSel x y st2 (bb.getD x1 0, bb.getD (y1 + 2) 0))
            st1)
        st)
    (0, 0, 0)
  intDist (x, y) (sel.2.1, sel.2.2)

/-- The four corners `(bb[x1], bb[y1+2])` of one bounding box, in the scan
order of the loops of `radial_line_model_radius`. -/
def bbCorners (bb : List ℤ) : List Point :=
  [(bb.getD 0 0, bb.getD 2 0), (bb.getD 0 0, bb.getD 3 0),
   (bb.getD 1 0, bb.getD 2 0), (bb.getD 1 0, bb.getD 3 0)]

/-- All eight bounding-box corners scanned by `radial_line_model_radius`, in
scan order. -/
def cornersList (objects : List Mask) : List Point :=
  (objects.map bounding_box).flatMap bbCorners

/-- `point_overlap` from src/image.py (lines 199–209): in-bounds test (with
the column bound taken from the first row, evaluated only when the row index
is in bounds, as Python's short-circuit does) and mask lookup. -/
def point_overlap (pt : Point) (obj : Mask) : Bool :=
  if (0 ≤ pt.1 ∧ pt.1 < (obj.length : ℤ)) ∧ (0 ≤ pt.2 ∧ pt.2 < ((obj.headD []).length : ℤ))
  then maskGet obj pt.1 pt.2 else false

/-- `radial_line_model` from src/image.py (lines 182–196): per half-line, the
fraction of its points overlapping `objects[0]` resp. `objects[1]`.  Python's
float division of small integers is modelled exactly in `ℚ`. -/
def radial_line_model (lines : List (List Point)) (objects : List Mask) :
    List ℚ × List ℚ :=
  (lines.map fun line =>
     (((line.filter fun p => point_overlap p (objects.getD 0 [])).length : ℚ)
       / (line.length : ℚ)),
   lines.map fun line =>
     (((line.filter fun p => point_overlap p (objects.getD 1 [])).length : ℚ)
       / (line.length : ℚ)))

/-- The three labels `"A"`, `"B"`, `"_"` used by `forces`. -/
inductive Label : Type
  | A
  | B
  | bg
  deriving DecidableEq

/-- Point classification of `forces` (src/image.py lines 157–163): `A` if the
point overlaps `objects[1]`, else `B` if it overlaps `objects[0]`, else
background.  The source inlines exactly the bounds test of `point_overlap`. -/
def pointLabel (objects : List Mask) (pt : Point) : Label :=
  if point_overlap pt (objects.getD 1 []) then .A
  else if point_overlap pt (objects.getD 0 []) then .B
  else .bg

/-- The label sequences (`travels`) of `forces` (src/image.py lines 154–164). -/
def travels (objects : List Mask) (diameters : List (List Point)) :
    List (List Label) :=
  diameters.map fun line => line.map (pointLabel objects)

/-- One pair contribution of `forces` (src/image.py lines 173–177):
`int(math.dist(...))` for force type 0, else
`log((dist+1)² / (dist·(dist+2)))` on the truncated distance. -/
noncomputable def forceContrib (force_type : ℤ) (p q : Point) : ℝ :=
  if force_type = 0 then (intDist p q : ℝ)
  else Real.log (((intDist p q : ℝ) + 1) ^ 2
                  / ((intDist p q : ℝ) * ((intDist p q : ℝ) + 2)))

/-- The per-diameter accumulation of `forces` (src/image.py lines 166–178):
if both labels occur, sum the contributions over `p` in `range(len)` with
label `A` and `r` in `range(p, len)` with label `B`; otherwise 0. -/
noncomputable def forceOfLine (force_type : ℤ) (diam : List Point)
    (fline : List Label) : ℝ :=
  if Label.A ∈ fline ∧ Label.B ∈ fline then
    (List.range fline.length).foldl
      (fun force p =>
        if fline.getD p .bg = .A then
          (List.range' p (fline.length - p)).foldl
            (fun force2 r =>
              if fline.getD r .bg = .B then
                force2 + forceContrib force_type (diam.getD p (0, 0)) (diam.getD r (0, 0))
              else force2)
            force
        else force)
      0
  else 0

/-- `forces` from src/image.py (lines 145–179). -/
noncomputable def forces (objects : List Mask) (diameters : List (List Point))
    (force_type : ℤ) : List ℝ :=
  (List.range (travels objects diameters).length).map fun i =>
    forceOfLine force_type (diameters.getD i []) ((travels objects diameters).getD i [])

/-- Python 3 `round` (banker's rounding: ties go to the even integer). -/
noncomputable def pyRound (r : ℝ) : ℤ :=
  if Int.fract r < 1 / 2 then ⌊r⌋
  else if 1 / 2 < Int.fract r then ⌊r⌋ + 1
  else if ⌊r⌋ % 2 = 0 then ⌊r⌋ else ⌊r⌋ + 1

/-- Modelled from the spec: the external `LineRasterizer` primitive
(`pybresenham.line`, not part of this repository).  Per §4.3 it produces a
finite ordered sequence of integer points approximating the segment from `p1`
to `p2`, inclusive of both endpoints, by a standard digital line-drawing
discretization (here the classic integer Bresenham walk); `p1 = p2` yields a
single-point sequence.  The claims below depend only on this interface, never
on the individual pixels chosen. -/
def blineAux (x1 y1 sx sy dx dy : ℤ) : ℕ → ℤ → ℤ → ℤ → List Point
  | 0, x, y, _ => [(x, y)]
  | fuel + 1, x, y, err =>
    if x = x1 ∧ y = y1 then [(x, y)]
    else
      let e2 := 2 * err
      let x2 := if e2 ≥ -dy then x + sx else x
      let y2 := if e2 ≤ dx then y + sy else y
      let err2 := err + (if e2 ≥ -dy then -dy else 0) + (if e2 ≤ dx then dx else 0)
      (x, y) :: blineAux x1 y1 sx sy dx dy fuel x2 y2 err2

/-- Modelled from the spec: see `blineAux`. -/
def bline (x0 y0 x1 y1 : ℤ) : List Point :=
  let dx := |x1 - x0|
  let dy := |y1 - y0|
  let sx : ℤ := if x0 < x1 then 1 else -1
  let sy : ℤ := if y0 < y1 then 1 else -1
  blineAux x1 y1 sx sy dx dy (dx + dy).toNat x0 y0 (dx - dy)

/-- `lines_diameters` from src/image.py (lines 78–96): one half-line and one
diameter per angular sample `i < int(2π / step)` (for a positive step, `int`
truncation of the positive quotient is the floor). -/
noncomputable def lines_diameters (objects : List Mask) (x y : ℤ) (step : ℝ) :
    List (List Point) × List (List Point) :=
  let radius : ℤ := (radial_line_model_radius objects x y : ℤ)
  let n : ℕ := (⌊Real.pi * 2 / step⌋).toNat
  let pointA : ℕ → Point := fun i =>
    (pyRound ((x : ℝ) + (radius : ℝ) * Real.cos (step * (-(i : ℝ)))),
     pyRound ((y : ℝ) + (radius : ℝ) * Real.sin (step * (-(i : ℝ)))))
  let pointB : ℕ → Point := fun i =>
    (pyRound ((x : ℝ) + (radius : ℝ) * Real.cos (step * (-(i : ℝ)) + Real.pi)),
     pyRound ((y : ℝ) + (radius : ℝ) * Real.sin (step * (-(i : ℝ)) + Real.pi)))
  ((List.range n).map fun i => bline x y (pointA i).1 (pointA i).2,
   (List.range n).map fun i =>
     bline (pointA i).1 (pointA i).2 (pointB i).1 (pointB i).2)

/-- The mask-pair core of `image_processing` (src/image.py lines 212–226):
everything after segmentation and center-point selection, which the claims
quantify over directly (two masks, a center `(x, y)`, a step in radians, a
force type).  Returns `(RLM₁, RLM₂, force histogram)`. -/
noncomputable def image_processing_core (objects : List Mask) (x y : ℤ)
    (step : ℝ) (force_type : ℤ) : List ℚ × List ℚ × List ℝ :=
  ((radial_line_model (lines_diameters objects x y step).1 objects).1,
   (radial_line_model (lines_diameters objects x y step).1 objects).2,
   forces objects (lines_diameters objects x y step).2 force_type)

/-- `True` iff the mask has at least one true pixel. -/
def hasTrue (m : Mask) : Bool :=
  m.any fun row => row.any id

/-- Spec-side cell test for the contour predicate of §4.1: `mask[x][y]` for a
W×H grid (`W` rows, `H` columns taken from the first row), out of bounds
counting as false. -/
def specCell (m : Mask) (x y : ℤ) : Bool :=
  if 0 ≤ x ∧ x < (m.length : ℤ) ∧ 0 ≤ y ∧ y < ((m.headD []).length : ℤ) then
    maskGet m x y
  else false

/-- The contour predicate as the spec words it (§4.1 / claim C3): the pixel is
true AND (it is on the mask's outer border OR one of its four orthogonal
neighbors is false, neighbors outside grid bounds counting as false). -/
def spec_is_contour (m : Mask) (x y : ℤ) : Bool :=
  specCell m x y &&
    (decide (x = 0) || decide (y = 0)
      || decide (x = (m.length : ℤ) - 1)
      || decide (y = ((m.headD []).length : ℤ) - 1)
      || !specCell m (x - 1) y || !specCell m (x + 1) y
      || !specCell m x (y - 1) || !specCell m x (y + 1))

/-- Minimum of a list of integers (its head when nonempty; 0 on `[]`,
unused). -/
def listMin (l : List ℤ) : ℤ :=
  l.foldr min (l.headD 0)

/-- Maximum of a list of integers. -/
def listMax (l : List ℤ) : ℤ :=
  l.foldr max (l.headD 0)

/-- The four axis-aligned bounding-box corners of a mask as the spec words
them: min/max x and y over the true pixels. -/
def specCorners (m : Mask) : List Point :=
  [(listMin ((x_pixels m).map (Nat.cast : ℕ → ℤ)), listMin ((y_pixels m).map Nat.cast)),
   (listMin ((x_pixels m).map Nat.cast), listMax ((y_pixels m).map Nat.cast)),
   (listMax ((x_pixels m).map Nat.cast), listMin ((y_pixels m).map Nat.cast)),
   (listMax ((x_pixels m).map Nat.cast), listMax ((y_pixels m).map Nat.cast))]

/-- The radius as claim C1 words it: the integer truncation of the maximum
Euclidean distance from the center to any of the eight bounding-box corners.
(Truncation commutes with a finite maximum, so this equals the maximum of the
truncated distances.) -/
def specRadialRadius (objects : List Mask) (x y : ℤ) : ℕ :=
  ((objects.flatMap specCorners).map fun c => intDist (x, y) c).foldr max 0

/-- 4×4 mask whose only true pixel is (3, 3). -/
def maskC1A : Mask :=
  [List.replicate 4 false, List.replicate 4 false, List.replicate 4 false,
   [false, false, false, true]]

/-- 6×1 mask whose only true pixel is (5, 0). -/
def maskC1B : Mask :=
  [[false], [false], [false], [false], [false], [true]]

/-- The 5×5 all-true mask of claim C4. -/
def mask5 : Mask :=
  List.replicate 5 (List.replicate 5 true)

/-- A row of 7 cells, true exactly at the listed columns. -/
def row7 (js : List ℕ) : List Bool :=
  (List.range 7).map fun j => js.contains j

/-- 7×7 mask with true pixels (0,3), (1,3), (3,0), (3,6): its slope-sorted
contour drives the pruning cursor of `convex_hull` down to 0. -/
def maskC2 : Mask :=
  [row7 [3], row7 [3], row7 [], row7 [0, 6], row7 [], row7 [], row7 []]

/-- 1×1 all-false mask (empty contour, zero true pixels). -/
def maskEmpty : Mask :=
  [[false]]

/-- 1×2 all-true mask: one row, two columns. -/
def mask1x2 : Mask :=
  [[true, true]]

/-- The slope key is the rational division Δy / Δx (sentinel 1 for Δx = 0):
`Rat.divInt` in `compute_slope` is exactly the division of `ℚ`. -/
theorem compute_slope_eq_div (p1 p2 : Point) :
    compute_slope p1 p2
      = if p2.1 - p1.1 = 0 then 1
        else ((p2.2 - p1.2 : ℤ) : ℚ) / ((p2.1 - p1.1 : ℤ) : ℚ) := by
  unfold compute_slope
  rw [Rat.divInt_eq_div]

/-! ### Claim C8 -/

/-- C8 (code_bug): on a mask whose contour is empty, `convex_hull` does not
fail with an explicit `EmptyContourError`; it silently returns the sentinel
pivot (9999, 9999) and an empty hull. -/
theorem c8_convex_hull_empty_contour_returns_sentinel :
    convex_hull maskEmpty = some (((9999 : ℤ), (9999 : ℤ)), []) := by
  decide

/-! ### Claim C9 -/

/-- C9 (code_bug): on a mask with zero true pixels, `barycentre` fails with a
plain ZeroDivisionError (the division `sum(x_pixels) / len(x_pixels)` with an
empty list), not with a named `DegenerateObjectError`. -/
theorem c9_barycentre_empty_mask_zero_division :
    barycentre maskEmpty = BarycentreResult.zeroDivisionError := by
  decide

/-! ### Claim C3 -/

/-- C3 (code_bug): on the 1×2 all-true mask, the pixel (0, 1) satisfies the
spec's contour predicate (true pixel on the outer border), yet
`object_contour` never scans it — both its loops run over `range(len(obj))`,
the row count — so the returned contour is `[(0, 0)]` only. -/
theorem c3_object_contour_misses_wide_mask_columns :
    object_contour mask1x2 = [((0 : ℤ), (0 : ℤ))]
      ∧ spec_is_contour mask1x2 0 1 = true
      ∧ ((0 : ℤ), (1 : ℤ)) ∉ object_contour mask1x2 := by
  decide

/-! ### Claim C2 -/

/-- C2 counterexample: on `maskC2` the pruning loop of `convex_hull`
evaluates a power test with the cursor at index 0, refuting the claim that
the cursor is at least 1 whenever a power test is evaluated. -/
theorem c2_counterexample_power_test_at_cursor_zero :
    (0 : ℤ) ∈ convexHullCursors maskC2 := by
  decide

/-- C2 amended: removing a candidate steps the cursor back by one with no
lower clamp, so it can reach index 0; the `ch[i-1]` read then resolves, by
Python's negative indexing, to the LAST element of the current sequence
rather than an element before the first, and no out-of-range access occurs.
On `maskC2` the power tests are evaluated at cursors 1, 2, 1, 0 and the pass
returns pivot (0, 3) with the sequence [(3, 0), (3, 6)]; at the final test
the `ch[0-1]` read yields (3, 6), the last element. -/
theorem c2_amended_cursor_zero_wraps_to_last :
    convexHullCursors maskC2 = [1, 2, 1, 0]
      ∧ convex_hull maskC2 = some (((0 : ℤ), (3 : ℤ)), [(3, 0), (3, 6)])
      ∧ pyGet [((3 : ℤ), (0 : ℤ)), ((3 : ℤ), (6 : ℤ))] (0 - 1) = some ((3 : ℤ), (6 : ℤ)) := by
  decide

/-! ### Claim C4 -/

/-- C4 counterexample: on the 5×5 all-true mask the hull sequence returned by
`convex_hull` has 11 points, not the 4 corner points claimed: collinear
border points pass the `power ≥ 0` test and are kept, while the pivot-column
points (0, y) — including the corners (0, 0) and (0, 4) — are pruned away. -/
theorem c4_counterexample_hull_has_eleven_points :
    (convex_hull mask5).map (fun r => r.2.length) = some 11
      ∧ (11 : ℕ) ≠ 4 := by
  decide

/-- C4 amended: on the 5×5 all-true mask, `object_contour` returns exactly
the 16 border cells (in row-major scan order), and `convex_hull` returns
pivot (0, 0) together with the 11-point sequence below: the bottom edge, the
right edge and the top edge survive pruning (collinear triples have power 0),
and the pivot-column points (0, 0), (0, 1), …, (0, 4) are removed. -/
theorem c4_amended_contour16_hull11 :
    object_contour mask5
        = [((0 : ℤ), (0 : ℤ)), (0, 1), (0, 2), (0, 3), (0, 4), (1, 0), (1, 4),
           (2, 0), (2, 4), (3, 0), (3, 4), (4, 0), (4, 1), (4, 2), (4, 3), (4, 4)]
      ∧ convex_hull mask5
        = some (((0 : ℤ), (0 : ℤ)),
            [((1 : ℤ), (0 : ℤ)), (2, 0), (3, 0), (4, 0), (4, 1), (4, 2), (4, 3),
             (4, 4), (3, 4), (2, 4), (1, 4)]) := by
  decide

/-! ### Claim C1 -/

/-- Exact evaluation of the integer square root: if `k² ≤ n < (k+1)²` then
`Nat.sqrt n = k`. -/
theorem sqrt_eval {k n : ℕ} (h1 : k * k ≤ n) (h2 : n < (k + 1) * (k + 1)) :
    Nat.sqrt n = k :=
  le_antisymm (Nat.lt_succ_iff.mp (Nat.sqrt_lt.mpr h2)) (Nat.le_sqrt.mpr h1)

/-- C1 counterexample: with center (0, 0), mask A having its only true pixel
at (3, 3) and mask B having its only true pixel at (5, 0), the corner (3, 3)
wins the Manhattan-distance scan (6 > 5), so the code returns
`int(dist((0,0),(3,3))) = 4`, while the maximum truncated Euclidean distance
over the corners is `int(dist((0,0),(5,0))) = 5`. -/
theorem c1_counterexample_manhattan_selection :
    hasTrue maskC1A = true ∧ hasTrue maskC1B = true
      ∧ radial_line_model_radius [maskC1A, maskC1B] 0 0 = 4
      ∧ specRadialRadius [maskC1A, maskC1B] 0 0 = 5
      ∧ radial_line_model_radius [maskC1A, maskC1B] 0 0
          ≠ specRadialRadius [maskC1A, maskC1B] 0 0 := by
  have e18 : intDist ((0 : ℤ), (0 : ℤ)) (3, 3) = 4 := by
    have h : intDist ((0 : ℤ), (0 : ℤ)) (3, 3) = Nat.sqrt 18 := rfl
    rw [h]
    exact sqrt_eval (by norm_num) (by norm_num)
  have e25 : intDist ((0 : ℤ), (0 : ℤ)) (5, 0) = 5 := by
    have h : intDist ((0 : ℤ), (0 : ℤ)) (5, 0) = Nat.sqrt 25 := rfl
    rw [h]
    exact sqrt_eval (by norm_num) (by norm_num)
  have hrad : radial_line_model_radius [maskC1A, maskC1B] 0 0
      = intDist ((0 : ℤ), (0 : ℤ)) (3, 3) := rfl
  have hspec : specRadialRadius [maskC1A, maskC1B] 0 0 = 5 := by
    have hl : [maskC1A, maskC1B].flatMap specCorners
        = [((3 : ℤ), (3 : ℤ)), (3, 3), (3, 3), (3, 3), (5, 0), (5, 0), (5, 0), (5, 0)] := by
      decide
    unfold specRadialRadius
    rw [hl]
    simp only [List.map_cons, List.map_nil, List.foldr_cons, List.foldr_nil, e18, e25]
    decide
  refine ⟨by decide, by decide, ?_, hspec, ?_⟩
  · rw [hrad, e18]
  · rw [hrad, e18, hspec]
    decide

/-- The two `range(2)` corner loops of `radial_line_model_radius` are a fold
of the selection step over the four corners of one box, in scan order. -/
theorem corner_fold_one (x y : ℤ) (bb : List ℤ) (st : ℤ × ℤ × ℤ) :
    (List.range 2).foldl
      (fun st1 x1 =>
        (List.range 2).foldl
          (fun st2 y1 => cornerSel x y st2 (bb.getD x1 0, bb.getD (y1 + 2) 0))
          st1)
      st
    = (bbCorners bb).foldl (cornerSel x y) st :=
  rfl

/-- The whole selection loop of `radial_line_model_radius` is a fold of the
selection step over the eight corners, in scan order. -/
theorem corner_fold (x y : ℤ) (bbs : List (List ℤ)) (st : ℤ × ℤ × ℤ) :
    bbs.foldl
      (fun st bb =>
        (List.range 2).foldl
          (fun st1 x1 =>
            (List.range 2).foldl
              (fun st2 y1 => cornerSel x y st2 (bb.getD x1 0, bb.getD (y1 + 2) 0))
              st1)
          st)
      st
    = (bbs.flatMap bbCorners).foldl (cornerSel x y) st := by
  induction bbs generalizing st with
  | nil => rfl
  | cons bb bbs ih =>
    rw [List.foldl_cons, List.flatMap_cons, List.foldl_append, corner_fold_one, ih]

/-- Invariant of the corner-selection fold: the selected score never drops,
dominates every scanned corner's Manhattan distance, and the final state is
either the initial one or the record of some scanned corner. -/
theorem cornerSel_fold_spec (x y : ℤ) (cs : List Point) :
    ∀ st : ℤ × ℤ × ℤ,
      st.1 ≤ (cs.foldl (cornerSel x y) st).1
      ∧ (∀ c ∈ cs, manhattan x y c.1 c.2 ≤ (cs.foldl (cornerSel x y) st).1)
      ∧ (cs.foldl (cornerSel x y) st = st
         ∨ ∃ c ∈ cs, cs.foldl (cornerSel x y) st = (manhattan x y c.1 c.2, c.1, c.2)) := by
  induction cs with
  | nil => intro st; simp
  | cons c cs ih =>
    intro st
    obtain ⟨h1, h2, h3⟩ := ih (cornerSel x y st c)
    have hstep1 : st.1 ≤ (cornerSel x y st c).1 := by
      unfold cornerSel
      split
      · exact le_of_lt (by assumption)
      · exact le_refl _
    have hstep2 : manhattan x y c.1 c.2 ≤ (cornerSel x y st c).1 := by
      unfold cornerSel
      split
      · exact le_refl _
      · exact le_of_not_lt (by assumption)
    rw [List.foldl_cons]
    refine ⟨le_trans hstep1 h1, ?_, ?_⟩
    · intro c2 hc2
      rcases List.mem_cons.mp hc2 with hc2 | hc2
      · subst hc2; exact le_trans hstep2 h1
      · exact h2 c2 hc2
    · rcases h3 with heq | ⟨c2, hc2, heq⟩
      · by_cases hlt : manhattan x y c.1 c.2 > st.1
        · right
          refine ⟨c, List.mem_cons_self .., ?_⟩
          rw [heq]
          unfold cornerSel
          rw [if_pos hlt]
        · left
          rw [heq]
          unfold cornerSel
          rw [if_neg hlt]
      · right
        exact ⟨c2, List.mem_cons_of_mem _ hc2, heq⟩

/-- C1 amended: provided some scanned bounding-box corner is at positive
Manhattan distance from the center, the radius equals the truncated Euclidean
distance to a corner that attains the MAXIMUM MANHATTAN distance from the
center — the code selects the corner by Manhattan distance and only then
measures it Euclideanly, so the result can differ from the maximum truncated
Euclidean distance over the corners. -/
theorem c1_amended_radius_is_manhattan_argmax (objects : List Mask) (x y : ℤ)
    (h : ∃ c ∈ cornersList objects, 0 < manhattan x y c.1 c.2) :
    ∃ c ∈ cornersList objects,
      (∀ c2 ∈ cornersList objects, manhattan x y c2.1 c2.2 ≤ manhattan x y c.1 c.2)
      ∧ radial_line_model_radius objects x y = intDist (x, y) c := by
  have hrw : radial_line_model_radius objects x y
      = intDist (x, y)
          (((cornersList objects).foldl (cornerSel x y) (0, 0, 0)).2.1,
           ((cornersList objects).foldl (cornerSel x y) (0, 0, 0)).2.2) := by
    unfold radial_line_model_radius cornersList
    dsimp only
    rw [corner_fold]
  obtain ⟨h1, h2, h3⟩ := cornerSel_fold_spec x y (cornersList objects) (0, 0, 0)
  rcases h3 with heq | ⟨c, hc, heq⟩
  · obtain ⟨c, hc, hpos⟩ := h
    have := h2 c hc
    rw [heq] at this
    exact absurd (lt_of_lt_of_le hpos this) (by norm_num)
  · refine ⟨c, hc, ?_, ?_⟩
    · intro c2 hc2
      have := h2 c2 hc2
      rw [heq] at this
      exact this
    · rw [hrw, heq]

/-- C1 witness: the counterexample mask pair with center (0, 0) satisfies the
hypothesis of `c1_amended_radius_is_manhattan_argmax`. -/
theorem c1_amended_radius_witness :
    (∃ c ∈ cornersList [maskC1A, maskC1B], 0 < manhattan 0 0 c.1 c.2)
      ∧ ∃ c ∈ cornersList [maskC1A, maskC1B],
          (∀ c2 ∈ cornersList [maskC1A, maskC1B],
            manhattan 0 0 c2.1 c2.2 ≤ manhattan 0 0 c.1 c.2)
          ∧ radial_line_model_radius [maskC1A, maskC1B] 0 0 = intDist (0, 0) c :=
  ⟨by decide, c1_amended_radius_is_manhattan_argmax [maskC1A, maskC1B] 0 0 (by decide)⟩

/-! ### Claim C6 -/

/-- C6 (confirmed): for nonempty half-lines, every RLM value is the overlap
count divided by the line length and lies in [0, 1]; `point_overlap` treats
out-of-bounds points as outside, returning `false` rather than failing. -/
theorem c6_rlm_values_unit_interval (lines : List (List Point)) (A B : Mask)
    (h : ∀ l ∈ lines, l ≠ []) :
    (∀ q ∈ (radial_line_model lines [A, B]).1, 0 ≤ q ∧ q ≤ 1)
    ∧ (∀ q ∈ (radial_line_model lines [A, B]).2, 0 ≤ q ∧ q ≤ 1)
    ∧ (∀ i : ℕ, ∀ hi : i < lines.length,
        (radial_line_model lines [A, B]).1.getD i 0
          = ((lines[i].filter fun p => point_overlap p A).length : ℚ)
            / (lines[i].length : ℚ)
        ∧ (radial_line_model lines [A, B]).2.getD i 0
          = ((lines[i].filter fun p => point_overlap p B).length : ℚ)
            / (lines[i].length : ℚ))
    ∧ (∀ p : Point, ∀ M : Mask,
        (p.1 < 0 ∨ (M.length : ℤ) ≤ p.1 ∨ p.2 < 0 ∨ ((M.headD []).length : ℤ) ≤ p.2) →
        point_overlap p M = false) := by
  have hval : ∀ (M : Mask), ∀ l ∈ lines,
      0 ≤ ((l.filter fun p => point_overlap p M).length : ℚ) / (l.length : ℚ)
      ∧ ((l.filter fun p => point_overlap p M).length : ℚ) / (l.length : ℚ) ≤ 1 := by
    intro M l hl
    have hlen : 0 < (l.length : ℚ) := by
      have hne := h l hl
      have : 0 < l.length := List.length_pos.mpr hne
      exact_mod_cast this
    constructor
    · positivity
    · rw [div_le_one hlen]
      exact_mod_cast List.length_filter_le _ l
  refine ⟨?_, ?_, ?_, ?_⟩
  · intro q hq
    obtain ⟨l, hl, rfl⟩ := List.mem_map.mp hq
    exact hval A l hl
  · intro q hq
    obtain ⟨l, hl, rfl⟩ := List.mem_map.mp hq
    exact hval B l hl
  · intro i hi
    unfold radial_line_model
    dsimp only
    constructor
    · rw [List.getD_eq_getElem _ _ (by simpa using hi), List.getElem_map]
      rfl
    · rw [List.getD_eq_getElem _ _ (by simpa using hi), List.getElem_map]
      rfl
  · intro p M hp
    unfold point_overlap
    rw [if_neg]
    intro hcon
    obtain ⟨⟨ha, hb⟩, hc, hd⟩ := hcon
    rcases hp with hx | hx | hx | hx <;> omega

/-- C6 witness: the theorem applied to one single-point half-line and the
pair of 1×1 all-true masks. -/
theorem c6_rlm_values_witness :
    (∀ l ∈ [[((0 : ℤ), (0 : ℤ))]], l ≠ [])
      ∧ ∀ q ∈ (radial_line_model [[((0 : ℤ), (0 : ℤ))]] [[[true]], [[true]]]).1,
          0 ≤ q ∧ q ≤ 1 :=
  ⟨by decide,
   (c6_rlm_values_unit_interval [[((0 : ℤ), (0 : ℤ))]] [[true]] [[true]] (by decide)).1⟩

/-! ### Claim C10 -/

/-- C10 (confirmed): along any diameter, a point labelled `A` and a (later)
point labelled `B` are necessarily distinct integer points — the label is a
function of the point — so their truncated Euclidean distance is at least 1
and the denominator `dist * (dist + 2)` of the logarithmic force term is
nonzero: the division-by-zero case is unreachable. -/
theorem c10_labelled_distance_at_least_one (o0 o1 : Mask) (ds : List (List Point))
    (hnd : ∀ d ∈ ds, d.Nodup) (i p r : ℕ) (hi : i < ds.length) (hpr : p < r)
    (hr : r < (ds.getD i []).length)
    (hA : pointLabel [o0, o1] ((ds.getD i []).getD p (0, 0)) = Label.A)
    (hB : pointLabel [o0, o1] ((ds.getD i []).getD r (0, 0)) = Label.B) :
    1 ≤ intDist ((ds.getD i []).getD p (0, 0)) ((ds.getD i []).getD r (0, 0))
    ∧ (intDist ((ds.getD i []).getD p (0, 0)) ((ds.getD i []).getD r (0, 0)) : ℝ)
        * ((intDist ((ds.getD i []).getD p (0, 0)) ((ds.getD i []).getD r (0, 0)) : ℝ) + 2)
        ≠ 0 := by
  set P := (ds.getD i []).getD p (0, 0) with hP
  set Q := (ds.getD i []).getD r (0, 0) with hQ
  have hne : P ≠ Q := by
    intro hPQ
    rw [hPQ] at hA
    exact absurd (hA.symm.trans hB) (by decide)
  have h1 : 1 ≤ intDist P Q := by
    unfold intDist
    rw [Nat.le_sqrt]
    have hor : (P.1 - Q.1).natAbs ≠ 0 ∨ (P.2 - Q.2).natAbs ≠ 0 := by
      by_contra hcon
      push_neg at hcon
      obtain ⟨ha, hb⟩ := hcon
      apply hne
      have ha1 : P.1 = Q.1 := by
        have := Int.natAbs_eq_zero.mp ha
        omega
      have hb1 : P.2 = Q.2 := by
        have := Int.natAbs_eq_zero.mp hb
        omega
      exact Prod.ext ha1 hb1
    rcases hor with hz | hz
    · have := Nat.one_le_iff_ne_zero.mpr hz
      nlinarith
    · have := Nat.one_le_iff_ne_zero.mpr hz
      nlinarith
  refine ⟨h1, ?_⟩
  have hcast : (1 : ℝ) ≤ (intDist P Q : ℝ) := by exact_mod_cast h1
  have hpos : 0 < (intDist P Q : ℝ) * ((intDist P Q : ℝ) + 2) := by nlinarith
  exact ne_of_gt hpos

/-- C10 witness: the theorem applied to the diameter [(0,0), (1,0)] with
mask B true at (1,0) and mask A true at (0,0). -/
theorem c10_labelled_distance_witness :
    (∀ d ∈ [[((0 : ℤ), (0 : ℤ)), ((1 : ℤ), (0 : ℤ))]], d.Nodup)
      ∧ pointLabel [[[false], [true]], [[true]]]
          (([[((0 : ℤ), (0 : ℤ)), ((1 : ℤ), (0 : ℤ))]].getD 0 []).getD 0 (0, 0)) = Label.A
      ∧ pointLabel [[[false], [true]], [[true]]]
          (([[((0 : ℤ), (0 : ℤ)), ((1 : ℤ), (0 : ℤ))]].getD 0 []).getD 1 (0, 0)) = Label.B
      ∧ 1 ≤ intDist (([[((0 : ℤ), (0 : ℤ)), ((1 : ℤ), (0 : ℤ))]].getD 0 []).getD 0 (0, 0))
              (([[((0 : ℤ), (0 : ℤ)), ((1 : ℤ), (0 : ℤ))]].getD 0 []).getD 1 (0, 0))
      ∧ (intDist (([[((0 : ℤ), (0 : ℤ)), ((1 : ℤ), (0 : ℤ))]].getD 0 []).getD 0 (0, 0))
            (([[((0 : ℤ), (0 : ℤ)), ((1 : ℤ), (0 : ℤ))]].getD 0 []).getD 1 (0, 0)) : ℝ)
          * ((intDist (([[((0 : ℤ), (0 : ℤ)), ((1 : ℤ), (0 : ℤ))]].getD 0 []).getD 0 (0, 0))
              (([[((0 : ℤ), (0 : ℤ)), ((1 : ℤ), (0 : ℤ))]].getD 0 []).getD 1 (0, 0)) : ℝ) + 2)
          ≠ 0 := by
  have hmain := c10_labelled_distance_at_least_one [[false], [true]] [[true]]
    [[((0 : ℤ), (0 : ℤ)), ((1 : ℤ), (0 : ℤ))]] (by decide) 0 0 1
    (by decide) (by decide) (by decide) (by decide) (by decide)
  exact ⟨by decide, by decide, by decide, hmain.1, hmain.2⟩

/-! ### Claim C5 -/

/-- C5 (confirmed): for any mask pair, center and positive angular step, the
pipeline core returns three histograms (RLM-A, RLM-B, force) of one common
length, namely `⌊2π / step⌋` — one entry per angular sample, because each of
`radial_line_model` and `forces` produces one entry per generated line. -/
theorem c5_pipeline_histogram_lengths (A B : Mask) (x y : ℤ) (step : ℝ) (ft : ℤ)
    (hA : hasTrue A = true) (hB : hasTrue B = true) (hstep : 0 < step) :
    (image_processing_core [A, B] x y step ft).1.length
        = (image_processing_core [A, B] x y step ft).2.1.length
    ∧ (image_processing_core [A, B] x y step ft).2.1.length
        = (image_processing_core [A, B] x y step ft).2.2.length
    ∧ ((image_processing_core [A, B] x y step ft).1.length : ℤ)
        = ⌊Real.pi * 2 / step⌋ := by
  have hlen1 : (lines_diameters [A, B] x y step).1.length
      = (⌊Real.pi * 2 / step⌋).toNat := by
    unfold lines_diameters
    dsimp only
    rw [List.length_map, List.length_range]
  have hlen2 : (lines_diameters [A, B] x y step).2.length
      = (⌊Real.pi * 2 / step⌋).toNat := by
    unfold lines_diameters
    dsimp only
    rw [List.length_map, List.length_range]
  have hr1 : (image_processing_core [A, B] x y step ft).1.length
      = (lines_diameters [A, B] x y step).1.length := by
    unfold image_processing_core radial_line_model
    dsimp only
    rw [List.length_map]
  have hr2 : (image_processing_core [A, B] x y step ft).2.1.length
      = (lines_diameters [A, B] x y step).1.length := by
    unfold image_processing_core radial_line_model
    dsimp only
    rw [List.length_map]
  have hr3 : (image_processing_core [A, B] x y step ft).2.2.length
      = (lines_diameters [A, B] x y step).2.length := by
    unfold image_processing_core forces travels
    dsimp only
    rw [List.length_map, List.length_range, List.length_map]
  refine ⟨by rw [hr1, hr2], by rw [hr2, hr3, hlen1, hlen2], ?_⟩
  rw [hr1, hlen1]
  exact Int.toNat_of_nonneg (Int.floor_nonneg.mpr (div_nonneg (by positivity) hstep.le))

/-- C5 witness: the theorem applied to the pair of 1×1 all-true masks, center
(0, 0), step 1 radian and force type 0. -/
theorem c5_pipeline_histogram_lengths_witness :
    hasTrue [[true]] = true ∧ (0 : ℝ) < 1
      ∧ (image_processing_core [[[true]], [[true]]] 0 0 1 0).1.length
          = (image_processing_core [[[true]], [[true]]] 0 0 1 0).2.1.length
      ∧ (image_processing_core [[[true]], [[true]]] 0 0 1 0).2.1.length
          = (image_processing_core [[[true]], [[true]]] 0 0 1 0).2.2.length
      ∧ ((image_processing_core [[[true]], [[true]]] 0 0 1 0).1.length : ℤ)
          = ⌊Real.pi * 2 / 1⌋ := by
  have hmain := c5_pipeline_histogram_lengths [[true]] [[true]] 0 0 1 0
    (by decide) (by decide) one_pos
  exact ⟨by decide, one_pos, hmain.1, hmain.2.1, hmain.2.2⟩

/-! ### Claim C7 -/

/-- Folding `a + g x` over a list of indices adds the sum of the mapped
values to the accumulator. -/
theorem foldl_add_eq_sum (g : ℕ → ℝ) : ∀ (l : List ℕ) (init : ℝ),
    l.foldl (fun a x => a + g x) init = init + (l.map g).sum := by
  intro l
  induction l with
  | nil => intro init; simp
  | cons z l ih =>
    intro init
    rw [List.foldl_cons, List.map_cons, List.sum_cons, ih, add_assoc]

/-- Summing a function mapped over `List.range` is a `Finset.range` sum. -/
theorem sum_map_range (g : ℕ → ℝ) (n : ℕ) :
    ((List.range n).map g).sum = ∑ k ∈ Finset.range n, g k := by
  induction n with
  | zero => simp
  | succ n ih =>
    rw [List.range_succ, List.map_append, List.sum_append, Finset.sum_range_succ, ih]
    simp

/-- Summing a function mapped over `List.range'` is a `Finset.Ico` sum. -/
theorem sum_map_range_from (g : ℕ → ℝ) : ∀ (k a : ℕ),
    ((List.range' a k).map g).sum = ∑ r ∈ Finset.Ico a (a + k), g r := by
  intro k
  induction k with
  | zero => intro a; simp
  | succ k ih =>
    intro a
    have h1 : List.range' a (k + 1) = a :: List.range' (a + 1) k := rfl
    rw [h1, List.map_cons, List.sum_cons, ih (a + 1),
      Finset.sum_eq_sum_Ico_succ_bot (by omega : a < a + (k + 1))]
    have h2 : a + (k + 1) = a + 1 + k := by omega
    rw [h2]

/-- `getD` through a `map`, at an in-range index (the defaults are then
irrelevant). -/
theorem getD_map_of_lt {α β : Type} (f : α → β) (l : List α) (d : α) (e : β)
    {i : ℕ} (hi : i < l.length) : (l.map f).getD i e = f (l.getD i d) := by
  rw [List.getD_eq_getElem _ _ (by simpa using hi), List.getElem_map,
    List.getD_eq_getElem _ _ hi]

/-- C7 counterexample: on the diameter [(0,0), (1,1)] with the point (0,0)
labelled `A` (mask `objects[1]`) and (1,1) labelled `B` (mask `objects[0]`),
the type-0 force is `int(math.dist((0,0),(1,1))) = int(√2) = 1`, not the raw
(untruncated) Euclidean distance `√2 = √((0−1)² + (0−1)²)`. -/
theorem c7_counterexample_distance_is_truncated :
    forces [[[false, false], [false, true]], [[true]]]
        [[((0 : ℤ), (0 : ℤ)), ((1 : ℤ), (1 : ℤ))]] 0 = [(1 : ℝ)]
      ∧ Real.sqrt (((0 : ℝ) - 1) ^ 2 + ((0 : ℝ) - 1) ^ 2) = Real.sqrt 2
      ∧ Real.sqrt 2 ≠ (1 : ℝ) := by
  refine ⟨?_, by norm_num, ?_⟩
  · have h1 : forces [[[false, false], [false, true]], [[true]]]
        [[((0 : ℤ), (0 : ℤ)), ((1 : ℤ), (1 : ℤ))]] 0
        = [forceOfLine 0 [((0 : ℤ), (0 : ℤ)), ((1 : ℤ), (1 : ℤ))] [Label.A, Label.B]] :=
      rfl
    rw [h1]
    have h2 : forceOfLine 0 [((0 : ℤ), (0 : ℤ)), ((1 : ℤ), (1 : ℤ))]
        [Label.A, Label.B] = 0 + ((Nat.sqrt 2 : ℕ) : ℝ) := rfl
    rw [h2, show Nat.sqrt 2 = 1 from sqrt_eval (by norm_num) (by norm_num)]
    norm_num
  · have hgt : (1 : ℝ) < Real.sqrt 2 := by
      rw [show (1 : ℝ) = Real.sqrt 1 from Real.sqrt_one.symm]
      exact Real.sqrt_lt_sqrt (by norm_num) (by norm_num)
    exact ne_of_gt hgt

/-- C7 amended: for force type 0, each diameter's force value equals the sum,
over ordered position pairs (p < r) along the diameter with the point at p
labelled `A` and the point at r labelled `B`, of the INTEGER-TRUNCATED
Euclidean distance between the two pixels (the source applies `int(...)` to
`math.dist`), not of the raw distance. -/
theorem c7_amended_force_zero_truncated_pair_sum (o0 o1 : Mask)
    (ds : List (List Point)) (i : ℕ) (hi : i < ds.length) :
    (forces [o0, o1] ds 0).getD i 0
      = ∑ pr ∈ (Finset.range (ds.getD i []).length ×ˢ
            Finset.range (ds.getD i []).length).filter
            (fun pr => pr.1 < pr.2
              ∧ pointLabel [o0, o1] ((ds.getD i []).getD pr.1 (0, 0)) = Label.A
              ∧ pointLabel [o0, o1] ((ds.getD i []).getD pr.2 (0, 0)) = Label.B),
          (intDist ((ds.getD i []).getD pr.1 (0, 0))
            ((ds.getD i []).getD pr.2 (0, 0)) : ℝ) := by
  have hA0 : (forces [o0, o1] ds 0).getD i 0
      = forceOfLine 0 (ds.getD i []) ((ds.getD i []).map (pointLabel [o0, o1])) := by
    unfold forces
    rw [List.getD_eq_getElem _ _ (by simpa [travels] using hi),
      List.getElem_map, List.getElem_range]
    congr 1
    unfold travels
    exact getD_map_of_lt _ ds [] [] hi
  rw [hA0]
  by_cases hguard : Label.A ∈ (ds.getD i []).map (pointLabel [o0, o1])
      ∧ Label.B ∈ (ds.getD i []).map (pointLabel [o0, o1])
  · have hfol : forceOfLine 0 (ds.getD i []) ((ds.getD i []).map (pointLabel [o0, o1]))
        = ∑ p ∈ Finset.range (ds.getD i []).length,
            (if ((ds.getD i []).map (pointLabel [o0, o1])).getD p .bg = Label.A then
              ∑ r ∈ Finset.Ico p (ds.getD i []).length,
                (if ((ds.getD i []).map (pointLabel [o0, o1])).getD r .bg = Label.B then
                  (intDist ((ds.getD i []).getD p (0, 0))
                    ((ds.getD i []).getD r (0, 0)) : ℝ)
                else 0)
            else 0) := by
      unfold forceOfLine
      rw [if_pos hguard]
      have hbody : (fun (force : ℝ) (p : ℕ) =>
          if ((ds.getD i []).map (pointLabel [o0, o1])).getD p .bg = Label.A then
            (List.range' p (((ds.getD i []).map (pointLabel [o0, o1])).length - p)).foldl
              (fun force2 r =>
                if ((ds.getD i []).map (pointLabel [o0, o1])).getD r .bg = Label.B then
                  force2 + forceContrib 0 ((ds.getD i []).getD p (0, 0))
                    ((ds.getD i []).getD r (0, 0))
                else force2)
              force
          else force)
          = fun force p => force +
              (if ((ds.getD i []).map (pointLabel [o0, o1])).getD p .bg = Label.A then
                ((List.range' p (((ds.getD i []).map (pointLabel [o0, o1])).length - p)).map
                  (fun r =>
                    if ((ds.getD i []).map (pointLabel [o0, o1])).getD r .bg = Label.B then
                      forceContrib 0 ((ds.getD i []).getD p (0, 0))
                        ((ds.getD i []).getD r (0, 0))
                    else 0)).sum
              else 0) := by
        funext force p
        split
        · have hin : (fun (force2 : ℝ) (r : ℕ) =>
              if ((ds.getD i []).map (pointLabel [o0, o1])).getD r .bg = Label.B then
                force2 + forceContrib 0 ((ds.getD i []).getD p (0, 0))
                  ((ds.getD i []).getD r (0, 0))
              else force2)
              = fun force2 r => force2 +
                  (if ((ds.getD i []).map (pointLabel [o0, o1])).getD r .bg = Label.B then
                    forceContrib 0 ((ds.getD i []).getD p (0, 0))
                      ((ds.getD i []).getD r (0, 0))
                  else 0) := by
            funext force2 r
            split
            · rfl
            · rw [add_zero]
          rw [hin, foldl_add_eq_sum]
        · rw [add_zero]
      rw [hbody, foldl_add_eq_sum, zero_add, sum_map_range]
      simp only [List.length_map]
      apply Finset.sum_congr rfl
      intro p hp
      have hpn : p < (ds.getD i []).length := Finset.mem_range.mp hp
      split
      · rw [sum_map_range_from]
        have hpn2 : p + ((ds.getD i []).length - p) = (ds.getD i []).length := by omega
        rw [hpn2]
        apply Finset.sum_congr rfl
        intro r hr
        split
        · unfold forceContrib
          rw [if_pos rfl]
        · rfl
      · rfl
    rw [hfol, Finset.sum_filter, Finset.sum_product]
    apply Finset.sum_congr rfl
    intro p hp
    have hpn : p < (ds.getD i []).length := Finset.mem_range.mp hp
    by_cases hAp : ((ds.getD i []).map (pointLabel [o0, o1])).getD p .bg = Label.A
    · rw [if_pos hAp]
      have hApPt : pointLabel [o0, o1] ((ds.getD i []).getD p (0, 0)) = Label.A :=
        (getD_map_of_lt (pointLabel [o0, o1]) (ds.getD i []) (0, 0) Label.bg hpn).symm.trans
          hAp
      have hBp : ¬ (((ds.getD i []).map (pointLabel [o0, o1])).getD p .bg = Label.B) := by
        rw [hAp]
        decide
      rw [Finset.sum_eq_sum_Ico_succ_bot hpn, if_neg hBp, zero_add]
      have hsub : Finset.Ico (p + 1) (ds.getD i []).length
          ⊆ Finset.range (ds.getD i []).length := by
        intro r hr
        exact Finset.mem_range.mpr (Finset.mem_Ico.mp hr).2
      rw [← Finset.sum_subset hsub (by
        intro r hrange hnot
        rw [if_neg]
        intro hcon
        obtain ⟨h1, _, _⟩ := hcon
        exact hnot (Finset.mem_Ico.mpr ⟨by omega, Finset.mem_range.mp hrange⟩))]
      apply Finset.sum_congr rfl
      intro r hr
      have hrIco := Finset.mem_Ico.mp hr
      have hrn : r < (ds.getD i []).length := hrIco.2
      have hpr : p < r := by omega
      have hrB : (((ds.getD i []).map (pointLabel [o0, o1])).getD r .bg = Label.B)
          ↔ (pointLabel [o0, o1] ((ds.getD i []).getD r (0, 0)) = Label.B) := by
        rw [getD_map_of_lt (pointLabel [o0, o1]) (ds.getD i []) (0, 0) Label.bg hrn]
      by_cases hBr : ((ds.getD i []).map (pointLabel [o0, o1])).getD r .bg = Label.B
      · rw [if_pos hBr, if_pos ⟨hpr, hApPt, hrB.mp hBr⟩]
      · rw [if_neg hBr, if_neg]
        intro hcon
        exact hBr (hrB.mpr hcon.2.2)
    · rw [if_neg hAp]
      symm
      apply Finset.sum_eq_zero
      intro r hr
      rw [if_neg]
      intro hcon
      apply hAp
      rw [getD_map_of_lt (pointLabel [o0, o1]) (ds.getD i []) (0, 0) Label.bg hpn]
      exact hcon.2.1
  · have h0 : forceOfLine 0 (ds.getD i []) ((ds.getD i []).map (pointLabel [o0, o1]))
        = 0 := by
      unfold forceOfLine
      rw [if_neg hguard]
    rw [h0]
    symm
    have hempty : (Finset.range (ds.getD i []).length ×ˢ
          Finset.range (ds.getD i []).length).filter
          (fun pr => pr.1 < pr.2
            ∧ pointLabel [o0, o1] ((ds.getD i []).getD pr.1 (0, 0)) = Label.A
            ∧ pointLabel [o0, o1] ((ds.getD i []).getD pr.2 (0, 0)) = Label.B) = ∅ := by
      rw [Finset.filter_eq_empty_iff]
      intro pr hprod
      intro hcon
      obtain ⟨h1, h2, h3⟩ := hcon
      apply hguard
      have hp2 := Finset.mem_product.mp hprod
      have hpn : pr.1 < (ds.getD i []).length := Finset.mem_range.mp hp2.1
      have hrn : pr.2 < (ds.getD i []).length := Finset.mem_range.mp hp2.2
      constructor
      · have hmem : ((ds.getD i []).map (pointLabel [o0, o1])).getD pr.1 Label.bg
            ∈ (ds.getD i []).map (pointLabel [o0, o1]) := by
          rw [List.getD_eq_getElem ((ds.getD i []).map (pointLabel [o0, o1])) Label.bg
            (by simpa using hpn)]
          exact List.getElem_mem _
        rw [getD_map_of_lt (pointLabel [o0, o1]) (ds.getD i []) (0, 0) Label.bg hpn, h2]
          at hmem
        exact hmem
      · have hmem : ((ds.getD i []).map (pointLabel [o0, o1])).getD pr.2 Label.bg
            ∈ (ds.getD i []).map (pointLabel [o0, o1]) := by
          rw [List.getD_eq_getElem ((ds.getD i []).map (pointLabel [o0, o1])) Label.bg
            (by simpa using hrn)]
          exact List.getElem_mem _
        rw [getD_map_of_lt (pointLabel [o0, o1]) (ds.getD i []) (0, 0) Label.bg hrn, h3]
          at hmem
        exact hmem
    rw [hempty, Finset.sum_empty]

/-- C7 witness: the amended theorem applied to the counterexample diameter
and mask pair (index 0). -/
theorem c7_amended_force_zero_witness :
    (0 : ℕ) < 1
      ∧ (forces [[[false, false], [false, true]], [[true]]]
            [[((0 : ℤ), (0 : ℤ)), ((1 : ℤ), (1 : ℤ))]] 0).getD 0 0
        = ∑ pr ∈ (Finset.range ([[((0 : ℤ), (0 : ℤ)), ((1 : ℤ), (1 : ℤ))]].getD 0 []).length ×ˢ
              Finset.range ([[((0 : ℤ), (0 : ℤ)), ((1 : ℤ), (1 : ℤ))]].getD 0 []).length).filter
              (fun pr => pr.1 < pr.2
                ∧ pointLabel [[[false, false], [false, true]], [[true]]]
                    (([[((0 : ℤ), (0 : ℤ)), ((1 : ℤ), (1 : ℤ))]].getD 0 []).getD pr.1 (0, 0))
                    = Label.A
                ∧ pointLabel [[[false, false], [false, true]], [[true]]]
                    (([[((0 : ℤ), (0 : ℤ)), ((1 : ℤ), (1 : ℤ))]].getD 0 []).getD pr.2 (0, 0))
                    = Label.B),
            (intDist (([[((0 : ℤ), (0 : ℤ)), ((1 : ℤ), (1 : ℤ))]].getD 0 []).getD pr.1 (0, 0))
              (([[((0 : ℤ), (0 : ℤ)), ((1 : ℤ), (1 : ℤ))]].getD 0 []).getD pr.2 (0, 0)) : ℝ) :=
  ⟨by decide,
   c7_amended_force_zero_truncated_pair_sum [[false, false], [false, true]] [[true]]
     [[((0 : ℤ), (0 : ℤ)), ((1 : ℤ), (1 : ℤ))]] 0 (by decide)⟩

end RLM
